import Mathlib

/-!
Verification of the hydroshift statistical core against its specification.

The definitions below are shallow embeddings of the Python source:

* `cp_pvalue_batch` embeds `hydroshift/stats/tests.py` (batch p-value lookup);
* `detect_change_point`, `validate_ts` semantics, and the test-statistic
  profile embed `tst/stats/tests.py` (`ChangePointModel`);
* `lepage_test_statistic` and `mood_test_statistic` embed
  `tst/stats/tests.py` (`LepageCPM`, `MoodCPM`), with the raw scipy
  statistics (`mood`, `mannwhitneyu`) kept abstract, since scipy is an
  external collaborator;
* `l_moments`, `lp3_parameters_lmom`, `mse_station_skew`, `weighted_skew`
  and `ffa_quantiles` embed `hydroshift/utils/ffa.py` and
  `hydroshift/utils/data_models.py`;
* `evidence_level`, `get_change_windows` and `get_data_valid` embed
  `hydroshift/_pages/changepoint.py` (`ChangePointAnalysis`).

Machine floats are modelled by exact arithmetic (ℚ where the code is
finitary, ℝ where scipy's transcendental functions appear); NaN is
modelled by `Option`; raised exceptions by `Except`/`Option`.
-/

/-! ## Batch p-value estimator (`hydroshift/stats/tests.py`, `cp_pvalue_batch`) -/

/-- The fixed significance levels `p_range = np.array([0.05, 0.01, 0.005, 0.001])`
used by `cp_pvalue_batch`. -/
def p_range : List ℚ := [5/100, 1/100, 5/1000, 1/1000]

/-- Embedding of `np.searchsorted(thresholds, v)` (side `left`) for an
ascending `thresholds` list: the left insertion point, i.e. the number of
elements strictly below `v` (NumPy documents the result `i` by
`a[i-1] < v <= a[i]`, which on a sorted list is exactly this count). -/
def searchsorted (thresholds : List ℚ) (v : ℚ) : ℕ :=
  thresholds.countP (fun t => decide (t < v))

/-- Embedding of `np.append([np.nan], p_range)`: the lookup table indexed by
the insertion point; `none` models `np.nan`. -/
def pLookup : List (Option ℚ) := none :: p_range.map some

/-- Embedding of `cp_pvalue_batch` (`hydroshift/stats/tests.py`, lines 40-47).
`thr` models the external collaborator `get_batch_threshold(cpm_type, p, n)`
(one call per significance level of `p_range`), and `batchDs` models the batch
statistic profile `res["Ds"]` returned by `cpm_detect_change_point_batch`
(one value per position of the series).  The code is
`np.append([np.nan], p_range)[np.searchsorted(thresholds, Ds)]`. -/
def cp_pvalue_batch (thr : ℚ → ℚ) (batchDs : List ℚ) : List (Option ℚ) :=
  batchDs.map (fun d => pLookup.getD (searchsorted (p_range.map thr) d) none)

/-! ## Change-point scan (`tst/stats/tests.py`, `ChangePointModel`) -/

/-- Errors raised by `ChangePointModel.detect_change_point`:
`ShortTimeSeries` raised by `validate_ts`, and the `ValueError` that
`np.argmax` raises on an empty profile (only reachable for an empty series
with `burn_in = 0`). -/
inductive CPError where
  | shortTimeSeries : CPError
  | valueError : CPError
deriving DecidableEq

/-- The statistic profile built by `detect_change_point`:
`[0]*burn_in`, then the test statistic of the split `(ts[:i], ts[i:])` for
`i in range(burn_in, len(ts) - burn_in)`, then `[0]*burn_in`. -/
def test_profile (stat : List ℚ → List ℚ → ℚ) (burn_in : ℕ) (ts : List ℚ) : List ℚ :=
  List.replicate burn_in 0
    ++ (List.range' burn_in (ts.length - 2 * burn_in)).map
        (fun i => stat (ts.take i) (ts.drop i))
    ++ List.replicate burn_in 0

/-- Embedding of `np.argmax`: scan keeping the current best index and value,
replacing the best only on a strictly larger value, so the first occurrence
of the maximum wins (NumPy's documented tie rule). -/
def argmaxAux : List ℚ → ℕ → ℕ → ℚ → ℕ
  | [], _, bi, _ => bi
  | x :: xs, i, bi, bv =>
    if bv < x then argmaxAux xs (i + 1) i x else argmaxAux xs (i + 1) bi bv

/-- `np.argmax` over a list: `none` models the `ValueError` NumPy raises on
an empty input. -/
def npArgmax : List ℚ → Option ℕ
  | [] => none
  | x :: xs => some (argmaxAux xs 1 0 x)

/-- Embedding of `ChangePointModel.detect_change_point` (`tst/stats/tests.py`,
lines 24-34), with `validate_ts` (lines 18-22) inlined as the guard: raise
`ShortTimeSeries` when `len(ts) < 2 * burn_in`, otherwise build the profile
and return it with `np.argmax(profile)`. -/
def detect_change_point (stat : List ℚ → List ℚ → ℚ) (burn_in : ℕ) (ts : List ℚ) :
    Except CPError (List ℚ × ℕ) :=
  if ts.length < 2 * burn_in then .error .shortTimeSeries
  else
    match npArgmax (test_profile stat burn_in ts) with
    | none => .error .valueError
    | some cp => .ok (test_profile stat burn_in ts, cp)

/-- The base class `ChangePointModel.test_statistic` (`tst/stats/tests.py`,
lines 14-16): it returns `0` for every pair of samples. -/
def base_test_statistic (_s1 _s2 : List ℚ) : ℚ := 0

/-- The page-level peak-count validation inside `ChangePointAnalysis.get_data`
(`hydroshift/_pages/changepoint.py`, lines 322-328): the data is flagged
invalid when `len(data["peaks"]) < st.session_state.burn_in`. -/
def get_data_valid (burn_in numPeaks : ℕ) : Bool :=
  if numPeaks < burn_in then false else true

/-! ## Evidence level and change windows (`hydroshift/_pages/changepoint.py`) -/

/-- Python's `s.split(sep)` for a single-character separator, on the
character list of the string: splitting on every occurrence of `sep`,
keeping empty fragments (`"".split(",") == [""]`). -/
def str_split_aux (sep : Char) : List Char → List (List Char)
  | [] => [[]]
  | c :: rest =>
    if c = sep then [] :: str_split_aux sep rest
    else
      match str_split_aux sep rest with
      | g :: gs => (c :: g) :: gs
      | [] => [[c]]

/-- Python's `s.split(sep)` for a single-character separator, as used by
`evidence_level` and `get_change_windows` (`v.split(",")`).  Note the
changepoint map's values are built with `", ".join(...)`, so every fragment
after the first keeps a leading space. -/
def str_split (s : String) (sep : Char) : List String :=
  (str_split_aux sep s.toList).map (fun cs => String.mk cs)

/-- Embedding of `ChangePointAnalysis.evidence_level`
(`hydroshift/_pages/changepoint.py`, lines 55-68).  The changepoint map
`cp_dict` is modelled as an association list from timestamps (ℕ) to the
comma-joined string of test names; the code takes the maximum over
timestamps of `len(cp_dict[cp].split(","))` and classifies it. -/
def evidence_level (cp_dict : List (ℕ × String)) : String :=
  let test_count := cp_dict.foldl (fun acc kv => max acc (str_split kv.2 ',').length) 0
  if test_count = 0 then "no"
  else if test_count = 1 then "limited"
  else if test_count = 2 then "moderate"
  else "strong"

/-- Union of the comma-split test-name fragments over a run of changepoint
entries, as `get_change_windows` accumulates it (`set(...).union(...)`);
dates are modelled as ℤ day counts. -/
def union_tests (c : List (ℤ × String)) : Finset String :=
  c.foldl (fun s e => s ∪ (str_split e.2 ',').toFinset) ∅

/-- The loop of `ChangePointAnalysis.get_change_windows`
(`hydroshift/_pages/changepoint.py`, lines 79-91): `last` is the last date
appended to the current group, `grpRev` the current group in reverse,
`tests` the set of fragments seen in the current group.  A date joins the
current group when `(dates[i] - current_group[-1]).days / 365 < max_dist`;
otherwise the group and its test count are emitted and a new group starts.
The trailing `if current_group:` always emits the final group. -/
def cw_go (md : ℚ) : List (ℤ × String) → ℤ → List ℤ → Finset String →
    List (List ℤ) × List ℕ
  | [], _, grpRev, tests => ([grpRev.reverse], [tests.card])
  | (d, v) :: rest, last, grpRev, tests =>
    if ((d - last : ℤ) : ℚ) / 365 < md then
      cw_go md rest d (d :: grpRev) (tests ∪ (str_split v ',').toFinset)
    else
      let r := cw_go md rest d [d] (str_split v ',').toFinset
      (grpRev.reverse :: r.1, tests.card :: r.2)

/-- Embedding of `ChangePointAnalysis.get_change_windows`
(`hydroshift/_pages/changepoint.py`, lines 70-93).  `none` models the
`IndexError` of `dates[0]` on an empty changepoint map. -/
def get_change_windows (md : ℚ) : List (ℤ × String) → Option (List (List ℤ) × List ℕ)
  | [] => none
  | (d, v) :: rest => some (cw_go md rest d [d] (str_split v ',').toFinset)

/-- Prepends an entry to the first chunk of a chunk list (reference
construction used to state what `get_change_windows` computes). -/
def cons_head (e : ℤ × String) : List (List (ℤ × String)) → List (List (ℤ × String))
  | [] => [[e]]
  | c :: cs => (e :: c) :: cs

/-- Reference chunking of the changepoint entries after the first one:
given the previous date `prev`, an entry continues the current chunk when
it is less than `md` years (of 365 days) after `prev`, and otherwise closes
the current chunk and starts a new one with itself. -/
def chunk_from (md : ℚ) (prev : ℤ) : List (ℤ × String) → List (List (ℤ × String))
  | [] => [[]]
  | (d, v) :: rest =>
    if ((d - prev : ℤ) : ℚ) / 365 < md then
      cons_head (d, v) (chunk_from md d rest)
    else
      [] :: cons_head (d, v) (chunk_from md d rest)

/-- Reference chunking of a full changepoint entry list: the first entry
opens the first chunk. -/
def full_chunks (md : ℚ) : List (ℤ × String) → List (List (ℤ × String))
  | [] => []
  | (d, v) :: rest => cons_head (d, v) (chunk_from md d rest)

/-! ## L-moments and LP3 parameters (`hydroshift/utils/ffa.py`) -/

/-- Embedding of `l_moments` (`hydroshift/utils/ffa.py`, lines 115-134):
sort descending (`np.sort(series)[::-1]`), compute the probability-weighted
moments `b_r = (1/n) * Σ_{j<n-r} C(n-(j+1), r) * x_j / C(n-1, r)`, and
return `l1 = b0`, `l2 = 2*b1 - b0`, `l3 = 6*b2 - 6*b1 + b0` (the code also
computes an unused `b3`). -/
def l_moments (series : List ℚ) : ℚ × ℚ × ℚ :=
  let sorted := (series.insertionSort (· ≤ ·)).reverse
  let n := series.length
  let b : ℕ → ℚ := fun r =>
    (((List.range (n - r)).map
        (fun j => (((n - 1 - j).choose r : ℚ) * sorted.getD j 0) / ((n - 1).choose r : ℚ))).sum) / n
  (b 0, 2 * b 1 - b 0, 6 * b 2 - 6 * b 1 + b 0)

/-- Embedding of the `LMOM` branch of `LP3Analysis.parameters`
(`hydroshift/utils/data_models.py`, lines 119-121, identical in
`hydroshift/utils/ffa.py`, lines 43-45): unpack
`mean_log, std_log, l3 = l_moments(log_peaks)` and set
`skew_log = l3 / (std_log * 0.7797)`.  `series` is the list of base-10 log
peaks. -/
def lp3_parameters_lmom (series : List ℚ) : ℚ × ℚ × ℚ :=
  let r := l_moments series
  (r.1, r.2.1, r.2.2 / (r.2.1 * (7797/10000)))

/-- Probability-weighted moment written the way claim C3 and the spec state
it: `b_r = (1/n) * Σ_j C(n-1-j, r) * x_(j) / C(n-1, r)` over the sample
sorted descending, as a `Finset.range` sum. -/
def pwm (series : List ℚ) (r : ℕ) : ℚ :=
  let x := (series.insertionSort (· ≤ ·)).reverse
  let n := series.length
  (∑ j ∈ Finset.range (n - r),
      (((n - 1 - j).choose r : ℚ) * x.getD j 0) / ((n - 1).choose r : ℚ)) / n

/-! ## Station-skew MSE and weighted skew (`hydroshift/utils/ffa.py`) -/

/-- Embedding of `LP3Analysis.mse_station_skew` (`hydroshift/utils/ffa.py`,
lines 89-100).  The station skew `g_s` (a scipy method-of-moments fit) is an
abstract real input; `n` is `len(self.peaks)`.  The source sets
`a = -0.33 + 0.08*|g|` when `|g| <= 0.9` and `a = -0.52 + 0.3*|g|`
otherwise; then, when `|g| <= 1.5`, sets `b = 0.94 - 0.26*|g|` and returns
`10 ** (a - b*np.log10(n/10))`, but in the `|g| > 1.5` branch it assigns
`a = 0.55` and never assigns `b`, so the return statement raises
`UnboundLocalError`; that branch is modelled by `none`. -/
noncomputable def mse_station_skew (g_s : ℝ) (n : ℕ) : Option ℝ :=
  let abs_g := |g_s|
  let a := if abs_g ≤ 0.9 then -0.33 + 0.08 * abs_g else -0.52 + 0.3 * abs_g
  if abs_g ≤ 1.5 then
    some ((10 : ℝ) ^ (a - (0.94 - 0.26 * abs_g) * Real.logb 10 ((n : ℝ) / 10)))
  else none

/-- Embedding of `LP3Analysis.weighted_skew` (`hydroshift/utils/ffa.py`,
lines 102-112): `mse_g = 0.302` and
`(g_s/mse_s + g_g/mse_g) / (1/mse_s + 1/mse_g)`, with `g_g` the external
regional (map) skew; undefined whenever `mse_station_skew` is. -/
noncomputable def weighted_skew (g_s g_g : ℝ) (n : ℕ) : Option ℝ :=
  (mse_station_skew g_s n).map (fun mse_s =>
    ((g_s / mse_s) + (g_g / 0.302)) / ((1 / mse_s) + (1 / 0.302)))

/-! ## Flood-frequency quantiles (`hydroshift/utils/data_models.py`) -/

/-- Embedding of `LP3Analysis.ffa_quantiles`
(`hydroshift/utils/data_models.py`, lines 138-144, identical in
`hydroshift/utils/ffa.py`, lines 67-73).  scipy's
`pearson3(skew, loc, scale).ppf(q)` is a location-scale family, modelled as
`loc + scale * P3ppf skew q` with `P3ppf` the standardized Pearson III
quantile function kept abstract (scipy is an external collaborator).  For
each return period `t` the code computes `aep = 1/t` and
`np.power(10, ppf(1 - aep)).astype(int)`; `astype(int)` truncates toward
zero, which on the positive value `10 ** x` is the floor. -/
noncomputable def ffa_quantiles (P3ppf : ℝ → ℝ → ℝ) (mean_log std_log skew_log : ℝ)
    (return_periods : List ℝ) : List (ℝ × ℤ) :=
  return_periods.map (fun t =>
    (1 / t, Int.floor ((10 : ℝ) ^ (mean_log + std_log * P3ppf skew_log (1 - 1 / t)))))

/-! ## Lepage and Mood statistics (`tst/stats/tests.py`) -/

/-- Embedding of `LepageCPM.test_statistic` (`tst/stats/tests.py`, lines
87-104).  `mood_raw` and `mw_raw` model the values of the external scipy
calls `mood(s1, s2).statistic` and `mannwhitneyu(s1, s2).statistic`;
`n0 = len(s1)`, `n1 = len(s2)`, `N = n0 + n1`.  The source computes
`mw_null_sd = (n0*n1*(n0+n1+1)/12) ** 0.5` but
`mood_null_sd = (n0*n1*(N+1)*(N**2-4)/180) ** 2` — the *square*, not the
square root, of the null-variance expression. -/
noncomputable def lepage_test_statistic (mood_raw mw_raw : ℝ) (n0 n1 : ℕ) : ℝ :=
  let N : ℝ := (n0 : ℝ) + (n1 : ℝ)
  let mw_null_mean : ℝ := (n0 : ℝ) * (n1 : ℝ) * 0.5
  let mw_null_sd : ℝ := ((n0 : ℝ) * (n1 : ℝ) * ((n0 : ℝ) + (n1 : ℝ) + 1) / 12) ^ (0.5 : ℝ)
  let mw_stat : ℝ := |mw_null_mean - mw_raw| / mw_null_sd
  let mood_null_mean : ℝ := (n0 : ℝ) * (N ^ 2 - 1) / 12
  let mood_null_sd : ℝ := ((n0 : ℝ) * (n1 : ℝ) * (N + 1) * (N ^ 2 - 4) / 180) ^ 2
  let mood_stat : ℝ := |mood_null_mean - mood_raw| / mood_null_sd
  mood_stat ^ 2 + mw_stat ^ 2

/-- Embedding of `MoodCPM.test_statistic` (`tst/stats/tests.py`, lines
109-116), with the same `** 2` on the variable named `mood_null_sd`. -/
noncomputable def mood_test_statistic (mood_raw : ℝ) (n0 n1 : ℕ) : ℝ :=
  let N : ℝ := (n0 : ℝ) + (n1 : ℝ)
  let mood_null_mean : ℝ := (n0 : ℝ) * (N ^ 2 - 1) / 12
  let mood_null_sd : ℝ := ((n0 : ℝ) * (n1 : ℝ) * (N + 1) * (N ^ 2 - 4) / 180) ^ 2
  |mood_null_mean - mood_raw| / mood_null_sd

/-- Modelled from the spec: the Lepage statistic as the claim states it,
each component standardized as |raw - null mean| divided by the null
standard deviation — for Mood, `sqrt(n0*n1*(N+1)*(N^2-4)/180)`; for
Mann–Whitney, `sqrt(n0*n1*(N+1)/12)`. -/
noncomputable def lepage_spec_statistic (mood_raw mw_raw : ℝ) (n0 n1 : ℕ) : ℝ :=
  let N : ℝ := (n0 : ℝ) + (n1 : ℝ)
  let mw_stat : ℝ :=
    |(n0 : ℝ) * (n1 : ℝ) * 0.5 - mw_raw| / Real.sqrt ((n0 : ℝ) * (n1 : ℝ) * (N + 1) / 12)
  let mood_stat : ℝ :=
    |(n0 : ℝ) * (N ^ 2 - 1) / 12 - mood_raw| /
      Real.sqrt ((n0 : ℝ) * (n1 : ℝ) * (N + 1) * (N ^ 2 - 4) / 180)
  mood_stat ^ 2 + mw_stat ^ 2

/-- A concrete instance of the external threshold collaborator used in the
theorems about `cp_pvalue_batch`: thresholds 1, 2, 3, 4 for the levels
0.05, 0.01, 0.005, 0.001 (ascending, as calibrated critical values are). -/
def thr_demo (alpha : ℚ) : ℚ :=
  if alpha = 5/100 then 1 else if alpha = 1/100 then 2
  else if alpha = 5/1000 then 3 else 4

/-! ## Theorems for claim C1 -/

/-- On a four-element ascending threshold list, the lookup of
`cp_pvalue_batch` returns the smallest significance level whose threshold
the statistic value strictly exceeds, and `none` (NaN) when the value does
not exceed the 0.05 threshold. -/
lemma cp_pvalue_point (thr : ℚ → ℚ) (h1 : thr (5/100) ≤ thr (1/100))
    (h2 : thr (1/100) ≤ thr (5/1000)) (h3 : thr (5/1000) ≤ thr (1/1000)) (d : ℚ) :
    pLookup.getD (searchsorted (p_range.map thr) d) none =
      if thr (1/1000) < d then some (1/1000)
      else if thr (5/1000) < d then some (5/1000)
      else if thr (1/100) < d then some (1/100)
      else if thr (5/100) < d then some (5/100)
      else none := by
  simp only [searchsorted, p_range, pLookup, List.map_cons, List.map_nil,
    List.countP_cons, List.countP_nil, decide_eq_true_eq]
  rcases lt_or_le (thr (1/1000)) d with h4 | h4
  · have g3 : thr (5/1000) < d := lt_of_le_of_lt h3 h4
    have g2 : thr (1/100) < d := lt_of_le_of_lt h2 g3
    have g1 : thr (5/100) < d := lt_of_le_of_lt h1 g2
    rw [if_pos h4, if_pos g3, if_pos g2, if_pos g1, if_pos h4]
    rfl
  · rcases lt_or_le (thr (5/1000)) d with h5 | h5
    · have g2 : thr (1/100) < d := lt_of_le_of_lt h2 h5
      have g1 : thr (5/100) < d := lt_of_le_of_lt h1 g2
      rw [if_neg (not_lt.2 h4), if_pos h5, if_pos g2, if_pos g1,
        if_neg (not_lt.2 h4), if_pos h5]
      rfl
    · rcases lt_or_le (thr (1/100)) d with h6 | h6
      · have g1 : thr (5/100) < d := lt_of_le_of_lt h1 h6
        rw [if_neg (not_lt.2 h4), if_neg (not_lt.2 h5), if_pos h6, if_pos g1,
          if_neg (not_lt.2 h4), if_neg (not_lt.2 h5), if_pos h6]
        rfl
      · rcases lt_or_le (thr (5/100)) d with h7 | h7
        · rw [if_neg (not_lt.2 h4), if_neg (not_lt.2 h5), if_neg (not_lt.2 h6),
            if_pos h7, if_neg (not_lt.2 h4), if_neg (not_lt.2 h5),
            if_neg (not_lt.2 h6), if_pos h7]
          rfl
        · rw [if_neg (not_lt.2 h4), if_neg (not_lt.2 h5), if_neg (not_lt.2 h6),
            if_neg (not_lt.2 h7), if_neg (not_lt.2 h4), if_neg (not_lt.2 h5),
            if_neg (not_lt.2 h6), if_neg (not_lt.2 h7)]
          rfl

/-- C1, counterexample.  With the ascending thresholds 1, 2, 3, 4 supplied
by `thr_demo` for the levels 0.05, 0.01, 0.005, 0.001, the batch value 5
exceeds every calibrated threshold, so the largest significance level whose
threshold it exceeds is 0.05; but `cp_pvalue_batch` maps it to 0.001, the
smallest such level — the claim's "largest" direction is false on the
code. -/
theorem cp_pvalue_batch_largest_counterexample :
    cp_pvalue_batch thr_demo [5] = [some (1/1000)] ∧
    (∀ a ∈ p_range, thr_demo a < 5 ∧ a ≤ 5/100) ∧
    cp_pvalue_batch thr_demo [5] ≠ [some (5/100)] := by
  refine ⟨?_, ?_, ?_⟩
  · norm_num [cp_pvalue_batch, thr_demo, searchsorted, p_range, pLookup, List.countP_cons]
  · intro a ha
    fin_cases ha <;> norm_num [thr_demo]
  · norm_num [cp_pvalue_batch, thr_demo, searchsorted, p_range, pLookup, List.countP_cons]

/-- C1, amended.  For every series of batch statistic values `batchDs` and
every threshold source whose calibrated thresholds ascend as the
significance level shrinks (as critical values do), `cp_pvalue_batch`
produces exactly one p-value per position; each position is mapped, by the
ascending `np.searchsorted` lookup, to the *smallest* significance level in
{0.05, 0.01, 0.005, 0.001} whose threshold the batch value strictly
exceeds (equivalently, the level owning the largest exceeded threshold),
and to NaN (`none`) when the value does not exceed the 0.05 threshold;
consequently every output lies in the fixed lattice
{0.05, 0.01, 0.005, 0.001, NaN} and is never a continuous interpolated
value. -/
theorem cp_pvalue_batch_spec (thr : ℚ → ℚ) (h1 : thr (5/100) ≤ thr (1/100))
    (h2 : thr (1/100) ≤ thr (5/1000)) (h3 : thr (5/1000) ≤ thr (1/1000))
    (batchDs : List ℚ) :
    (cp_pvalue_batch thr batchDs).length = batchDs.length ∧
    (∀ i, i < batchDs.length →
      (cp_pvalue_batch thr batchDs).getD i none =
        (if thr (1/1000) < batchDs.getD i 0 then some (1/1000)
         else if thr (5/1000) < batchDs.getD i 0 then some (5/1000)
         else if thr (1/100) < batchDs.getD i 0 then some (1/100)
         else if thr (5/100) < batchDs.getD i 0 then some (5/100)
         else none)) ∧
    (∀ p ∈ cp_pvalue_batch thr batchDs,
      p = none ∨ p = some (5/100) ∨ p = some (1/100) ∨
        p = some (5/1000) ∨ p = some (1/1000)) := by
  refine ⟨by simp [cp_pvalue_batch], ?_, ?_⟩
  · intro i hi
    have hi' : i < (cp_pvalue_batch thr batchDs).length := by
      simpa [cp_pvalue_batch] using hi
    rw [List.getD_eq_getElem _ _ hi', List.getD_eq_getElem _ _ hi]
    simp only [cp_pvalue_batch, List.getElem_map]
    exact cp_pvalue_point thr h1 h2 h3 _
  · intro p hp
    rcases List.mem_map.1 hp with ⟨d, _, rfl⟩
    have hle : searchsorted (p_range.map thr) d ≤ 4 := by
      simpa [p_range] using
        List.countP_le_length (fun t => decide (t < d)) (l := p_range.map thr)
    interval_cases h : searchsorted (p_range.map thr) d <;>
      simp [pLookup, p_range]

/-- C1, witness for the amended theorem, at the concrete collaborator
`thr_demo` and batch profile `[5/2]`. -/
theorem cp_pvalue_batch_spec_witness :
    (cp_pvalue_batch thr_demo [5/2]).length = 1 ∧
    (∀ i, i < ([5/2] : List ℚ).length →
      (cp_pvalue_batch thr_demo [5/2]).getD i none =
        (if thr_demo (1/1000) < ([5/2] : List ℚ).getD i 0 then some (1/1000)
         else if thr_demo (5/1000) < ([5/2] : List ℚ).getD i 0 then some (5/1000)
         else if thr_demo (1/100) < ([5/2] : List ℚ).getD i 0 then some (1/100)
         else if thr_demo (5/100) < ([5/2] : List ℚ).getD i 0 then some (5/100)
         else none)) ∧
    (∀ p ∈ cp_pvalue_batch thr_demo [5/2],
      p = none ∨ p = some (5/100) ∨ p = some (1/100) ∨
        p = some (5/1000) ∨ p = some (1/1000)) :=
  cp_pvalue_batch_spec thr_demo (by norm_num [thr_demo]) (by norm_num [thr_demo])
    (by norm_num [thr_demo]) [5/2]

/-! ## Theorems for claims C5, C6, C7 -/

/-- The running best value of the `np.argmax` scan (the value that pairs
with the index `argmaxAux` keeps). -/
def argvalAux : List ℚ → ℚ → ℚ
  | [], bv => bv
  | x :: xs, bv => if bv < x then argvalAux xs x else argvalAux xs bv

/-- Invariant of the `np.argmax` scan: the final best value bounds the seed
and every scanned element, and the final index either is the seed index
(when nothing beat the seed) or points at the first element attaining the
final best value. -/
lemma argmaxAux_spec (xs : List ℚ) : ∀ (i bi : ℕ) (bv : ℚ),
    (bv ≤ argvalAux xs bv ∧ ∀ y ∈ xs, y ≤ argvalAux xs bv) ∧
    ((argmaxAux xs i bi bv = bi ∧ argvalAux xs bv = bv) ∨
      (∃ k, k < xs.length ∧ argmaxAux xs i bi bv = i + k ∧
        xs.getD k 0 = argvalAux xs bv ∧ bv < argvalAux xs bv ∧
        ∀ m, m < k → xs.getD m 0 < argvalAux xs bv)) := by
  induction xs with
  | nil => intro i bi bv; exact ⟨⟨le_refl bv, by simp⟩, Or.inl ⟨rfl, rfl⟩⟩
  | cons x rest ih =>
    intro i bi bv
    by_cases hx : bv < x
    · obtain ⟨⟨hA1, hA2⟩, hB⟩ := ih (i + 1) i x
      have hval : argvalAux (x :: rest) bv = argvalAux rest x := by
        simp [argvalAux, hx]
      have hmax : argmaxAux (x :: rest) i bi bv = argmaxAux rest (i + 1) i x := by
        simp [argmaxAux, hx]
      rw [hval, hmax]
      refine ⟨⟨le_of_lt (lt_of_lt_of_le hx hA1), ?_⟩, ?_⟩
      · intro y hy
        rcases List.mem_cons.1 hy with rfl | hy
        · exact hA1
        · exact hA2 y hy
      · rcases hB with ⟨hres, hMx⟩ | ⟨k, hk, hres, hget, hxM, hall⟩
        · refine Or.inr ⟨0, by simp, by simpa using hres, ?_, ?_, ?_⟩
          · simpa [List.getD_cons_zero] using hMx.symm
          · rw [hMx]; exact hx
          · intro m hm; omega
        · refine Or.inr ⟨k + 1, by simpa using hk, by omega, ?_, ?_, ?_⟩
          · simpa [List.getD_cons_succ] using hget
          · exact lt_trans hx hxM
          · intro m hm
            rcases m with _ | m
            · simpa [List.getD_cons_zero] using hxM
            · rw [List.getD_cons_succ]
              exact hall m (by omega)
    · obtain ⟨⟨hA1, hA2⟩, hB⟩ := ih (i + 1) bi bv
      have hval : argvalAux (x :: rest) bv = argvalAux rest bv := by
        simp [argvalAux, hx]
      have hmax : argmaxAux (x :: rest) i bi bv = argmaxAux rest (i + 1) bi bv := by
        simp [argmaxAux, hx]
      rw [hval, hmax]
      refine ⟨⟨hA1, ?_⟩, ?_⟩
      · intro y hy
        rcases List.mem_cons.1 hy with rfl | hy
        · exact le_trans (not_lt.1 hx) hA1
        · exact hA2 y hy
      · rcases hB with ⟨hres, hMbv⟩ | ⟨k, hk, hres, hget, hbvM, hall⟩
        · exact Or.inl ⟨hres, hMbv⟩
        · refine Or.inr ⟨k + 1, by simpa using hk, by omega, ?_, hbvM, ?_⟩
          · simpa [List.getD_cons_succ] using hget
          · intro m hm
            rcases m with _ | m
            · rw [List.getD_cons_zero]
              exact lt_of_le_of_lt (not_lt.1 hx) hbvM
            · rw [List.getD_cons_succ]
              exact hall m (by omega)

/-- `np.argmax` of a non-empty list returns the index of the first
occurrence of the maximum: every element is bounded by the value at the
returned index, and every earlier element is strictly below it. -/
lemma npArgmax_spec (x : ℚ) (xs : List ℚ) :
    ∃ j, npArgmax (x :: xs) = some j ∧ j < (x :: xs).length ∧
      (∀ y ∈ x :: xs, y ≤ (x :: xs).getD j 0) ∧
      (∀ m, m < j → (x :: xs).getD m 0 < (x :: xs).getD j 0) := by
  obtain ⟨⟨hA1, hA2⟩, hB⟩ := argmaxAux_spec xs 1 0 x
  refine ⟨argmaxAux xs 1 0 x, rfl, ?_, ?_, ?_⟩
  · rcases hB with ⟨hres, _⟩ | ⟨k, hk, hres, _, _, _⟩
    · simp [hres]
    · rw [hres, List.length_cons]; omega
  · intro y hy
    rcases hB with ⟨hres, hMx⟩ | ⟨k, hk, hres, hget, _, _⟩
    · rw [hres, List.getD_cons_zero]
      rcases List.mem_cons.1 hy with rfl | hy
      · exact le_refl y
      · exact le_of_le_of_eq (hA2 y hy) hMx
    · rw [hres]
      have : (x :: xs).getD (1 + k) 0 = xs.getD k 0 := by
        rw [Nat.add_comm, List.getD_cons_succ]
      rw [this, hget]
      rcases List.mem_cons.1 hy with rfl | hy
      · exact hA1
      · exact hA2 y hy
  · intro m hm
    rcases hB with ⟨hres, _⟩ | ⟨k, hk, hres, hget, hxM, hall⟩
    · rw [hres] at hm; omega
    · rw [hres] at hm
      have hj : (x :: xs).getD (1 + k) 0 = xs.getD k 0 := by
        rw [Nat.add_comm, List.getD_cons_succ]
      rw [hres, hj, hget]
      rcases m with _ | m
      · rw [List.getD_cons_zero]; exact hxM
      · rw [List.getD_cons_succ]
        exact hall m (by omega)

/-- Length of the statistic profile: with the burn-in padding on both ends
it is exactly the series length (when the series passes validation). -/
lemma test_profile_length (stat : List ℚ → List ℚ → ℚ) (b : ℕ) (ts : List ℚ)
    (h : 2 * b ≤ ts.length) :
    (test_profile stat b ts).length = ts.length := by
  simp [test_profile]
  omega

/-- Entry `i` of the statistic profile: the statistic of the split at `i`
inside the admissible range `[b, n - b)`, the filler value `0` outside. -/
lemma test_profile_getD (stat : List ℚ → List ℚ → ℚ) (b : ℕ) (ts : List ℚ)
    (h : 2 * b ≤ ts.length) (i : ℕ) (hi : i < ts.length) :
    (test_profile stat b ts).getD i 0 =
      if b ≤ i ∧ i < ts.length - b then stat (ts.take i) (ts.drop i) else 0 := by
  have hlen : i < (test_profile stat b ts).length := by
    rw [test_profile_length stat b ts h]; exact hi
  rw [List.getD_eq_getElem _ _ hlen]
  by_cases h1 : i < b
  · have hL : i < (List.replicate b (0 : ℚ)
        ++ (List.range' b (ts.length - 2 * b)).map
            (fun j => stat (ts.take j) (ts.drop j))).length := by
      simp; omega
    simp only [test_profile]
    rw [List.getElem_append_left hL, List.getElem_append_left (by simpa using h1),
      List.getElem_replicate, if_neg (by omega)]
  · by_cases h2 : i < ts.length - b
    · have hL : i < (List.replicate b (0 : ℚ)
          ++ (List.range' b (ts.length - 2 * b)).map
              (fun j => stat (ts.take j) (ts.drop j))).length := by
        simp; omega
      have hb : (List.replicate b (0 : ℚ)).length ≤ i := by simp; omega
      simp only [test_profile]
      rw [List.getElem_append_left hL, List.getElem_append_right hb]
      have hib : i - (List.replicate b (0 : ℚ)).length
          < ((List.range' b (ts.length - 2 * b)).map
              (fun j => stat (ts.take j) (ts.drop j))).length := by
        simp; omega
      rw [List.getElem_map, List.getElem_range']
      have : b + 1 * (i - (List.replicate b (0 : ℚ)).length) = i := by simp; omega
      rw [this, if_pos ⟨by omega, h2⟩]
    · have hb : (List.replicate b (0 : ℚ)
          ++ (List.range' b (ts.length - 2 * b)).map
              (fun j => stat (ts.take j) (ts.drop j))).length ≤ i := by
        simp; omega
      simp only [test_profile]
      rw [List.getElem_append_right hb, List.getElem_replicate]
      rw [if_neg (by omega)]

/-- A validated non-empty series always produces an `ok` result whose
profile is `test_profile` and whose index is `np.argmax` of it. -/
lemma detect_change_point_ok (stat : List ℚ → List ℚ → ℚ) (b : ℕ) (ts : List ℚ)
    (h2b : 2 * b ≤ ts.length) (hne : ts ≠ []) :
    ∃ j, detect_change_point stat b ts = .ok (test_profile stat b ts, j) ∧
      npArgmax (test_profile stat b ts) = some j := by
  have hpos : 0 < (test_profile stat b ts).length := by
    rw [test_profile_length stat b ts h2b]
    exact List.length_pos.2 hne
  obtain ⟨x, xs, hx⟩ := List.exists_cons_of_ne_nil (List.length_pos.1 hpos)
  obtain ⟨j, hj, _, _, _⟩ := npArgmax_spec x xs
  refine ⟨j, ?_, ?_⟩
  · rw [detect_change_point, if_neg (not_lt.2 h2b), hx, hj]
  · rw [hx, hj]

/-- C5, counterexample.  The empty series with burn-in 0 passes the
`len(ts) < 2*burn_in` validation (0 ≥ 0), but `np.argmax` of the empty
profile raises `ValueError`, so no profile/changepoint pair is returned:
the claim fails on this degenerate input. -/
theorem empty_series_scan_counterexample :
    detect_change_point base_test_statistic 0 [] = .error .valueError ∧
    2 * 0 ≤ ([] : List ℚ).length :=
  ⟨rfl, le_refl 0⟩

/-- C5, amended.  For every *non-empty* series that passes validation
(`n ≥ 2*burn_in`), `detect_change_point` returns a profile of length
exactly `n` holding the test statistic of the split `(ts[:i], ts[i:])` at
every admissible position `i ∈ [b, n-b)` and the unevaluated filler value
`0` at every position outside that range, together with the index of the
first occurrence of the profile's maximum (`np.argmax`). -/
theorem detect_change_point_profile_spec (stat : List ℚ → List ℚ → ℚ) (b : ℕ)
    (ts : List ℚ) (h2b : 2 * b ≤ ts.length) (hne : ts ≠ []) :
    ∃ prof cp, detect_change_point stat b ts = .ok (prof, cp) ∧
      prof.length = ts.length ∧
      (∀ i, b ≤ i → i < ts.length - b →
        prof.getD i 0 = stat (ts.take i) (ts.drop i)) ∧
      (∀ i, i < ts.length → (i < b ∨ ts.length - b ≤ i) → prof.getD i 0 = 0) ∧
      cp < ts.length ∧
      (∀ j, j < ts.length → prof.getD j 0 ≤ prof.getD cp 0) ∧
      (∀ j, j < cp → prof.getD j 0 < prof.getD cp 0) := by
  obtain ⟨j, hok, hargmax⟩ := detect_change_point_ok stat b ts h2b hne
  have hlen : (test_profile stat b ts).length = ts.length :=
    test_profile_length stat b ts h2b
  have hpos : 0 < (test_profile stat b ts).length := by
    rw [hlen]; exact List.length_pos.2 hne
  obtain ⟨x, xs, hx⟩ := List.exists_cons_of_ne_nil (List.length_pos.1 hpos)
  obtain ⟨j', hj', hjlt, hmax, hfirst⟩ := npArgmax_spec x xs
  have hjj : j' = j := by
    rw [hx] at hargmax
    exact Option.some.inj (hj' ▸ hargmax)
  rw [hjj] at hjlt hmax hfirst
  refine ⟨test_profile stat b ts, j, hok, hlen, ?_, ?_, ?_, ?_, ?_⟩
  · intro i hbi hin
    rw [test_profile_getD stat b ts h2b i (by omega), if_pos ⟨hbi, hin⟩]
  · intro i hin hout
    rw [test_profile_getD stat b ts h2b i hin, if_neg (by omega)]
  · rw [← hlen, hx]; exact hjlt
  · intro k hk
    have hk' : k < (test_profile stat b ts).length := by rw [hlen]; exact hk
    have hmem : (test_profile stat b ts).getD k 0 ∈ test_profile stat b ts := by
      rw [List.getD_eq_getElem _ _ hk']
      exact List.getElem_mem hk'
    rw [hx] at hmem ⊢
    exact hmax _ hmem
  · intro k hk
    have := hfirst k hk
    rw [hx]
    exact this

/-- C5, witness: a statistic flagging the split after two samples, on the
series `[5, 5, 5, 5]` with burn-in 1. -/
theorem detect_change_point_profile_spec_witness :
    ∃ prof cp,
      detect_change_point (fun s1 _ => if s1.length = 2 then 1 else 0) 1 [5, 5, 5, 5] =
        .ok (prof, cp) ∧
      prof.length = ([5, 5, 5, 5] : List ℚ).length ∧
      (∀ i, 1 ≤ i → i < ([5, 5, 5, 5] : List ℚ).length - 1 →
        prof.getD i 0 =
          (if (([5, 5, 5, 5] : List ℚ).take i).length = 2 then (1 : ℚ) else 0)) ∧
      (∀ i, i < ([5, 5, 5, 5] : List ℚ).length →
        (i < 1 ∨ ([5, 5, 5, 5] : List ℚ).length - 1 ≤ i) → prof.getD i 0 = 0) ∧
      cp < ([5, 5, 5, 5] : List ℚ).length ∧
      (∀ j, j < ([5, 5, 5, 5] : List ℚ).length → prof.getD j 0 ≤ prof.getD cp 0) ∧
      (∀ j, j < cp → prof.getD j 0 < prof.getD cp 0) :=
  detect_change_point_profile_spec (fun s1 _ => if s1.length = 2 then 1 else 0) 1
    [5, 5, 5, 5] (by norm_num) (by simp)

/-- C6, counterexample.  On a series of length exactly `2 * burn_in` the
admissible range `[b, n-b)` is empty, the profile is all zeros, and
`np.argmax` returns index 0 — a changepoint position inside the first
`burn_in` samples.  (The statistic never being evaluated, the base class
statistic is used.) -/
theorem burnin_invariant_counterexample :
    detect_change_point base_test_statistic 20 (List.replicate 40 1) =
      .ok (List.replicate 40 0, 0) ∧ (0 : ℕ) < 20 :=
  ⟨rfl, by norm_num⟩

/-- C6, amended.  Whenever the statistic of some admissible split is
strictly positive (exceeds the `0` filler), the reported changepoint index
lies in `[b, n-b)`, outside the first and last `burn_in` samples; when no
admissible split statistic is positive (in particular when `n = 2*b`),
`np.argmax` of the zero-padded profile can return index 0, inside the
burn-in region. -/
theorem detect_change_point_burnin (stat : List ℚ → List ℚ → ℚ) (b : ℕ)
    (ts : List ℚ) (p : List ℚ) (cp : ℕ)
    (hok : detect_change_point stat b ts = .ok (p, cp))
    (hsig : ∃ i, b ≤ i ∧ i < ts.length - b ∧ 0 < stat (ts.take i) (ts.drop i)) :
    b ≤ cp ∧ cp < ts.length - b := by
  by_cases hcond : ts.length < 2 * b
  · rw [detect_change_point, if_pos hcond] at hok
    exact absurd hok (by simp)
  have h2b : 2 * b ≤ ts.length := not_lt.1 hcond
  have hne : ts ≠ [] := by
    obtain ⟨i, hbi, hin, _⟩ := hsig
    intro hnil
    rw [hnil] at hin
    simp at hin
  obtain ⟨j, hok', hargmax⟩ := detect_change_point_ok stat b ts h2b hne
  rw [hok'] at hok
  have hpj : p = test_profile stat b ts ∧ cp = j := by
    have := Except.ok.inj hok.symm
    exact ⟨congrArg Prod.fst this, congrArg Prod.snd this⟩
  obtain ⟨hp1, hp2⟩ := hpj
  subst hp1
  subst hp2
  have hlen : (test_profile stat b ts).length = ts.length :=
    test_profile_length stat b ts h2b
  have hpos : 0 < (test_profile stat b ts).length := by
    rw [hlen]; exact List.length_pos.2 hne
  obtain ⟨x, xs, hx⟩ := List.exists_cons_of_ne_nil (List.length_pos.1 hpos)
  obtain ⟨j', hj', hjlt, hmax, _⟩ := npArgmax_spec x xs
  have hjj : j' = cp := by
    rw [hx] at hargmax
    exact Option.some.inj (hj' ▸ hargmax)
  rw [hjj] at hjlt hmax
  obtain ⟨i, hbi, hin, hstat⟩ := hsig
  have hi : i < ts.length := by omega
  have hvi : (test_profile stat b ts).getD i 0 = stat (ts.take i) (ts.drop i) := by
    rw [test_profile_getD stat b ts h2b i hi, if_pos ⟨hbi, hin⟩]
  have hmem : (test_profile stat b ts).getD i 0 ∈ test_profile stat b ts := by
    have hi' : i < (test_profile stat b ts).length := by rw [hlen]; exact hi
    rw [List.getD_eq_getElem _ _ hi']
    exact List.getElem_mem hi'
  have hcp_pos : 0 < (test_profile stat b ts).getD cp 0 := by
    have hle : (test_profile stat b ts).getD i 0 ≤ (test_profile stat b ts).getD cp 0 := by
      rw [hx] at hmem ⊢
      exact hmax _ hmem
    calc (0 : ℚ) < stat (ts.take i) (ts.drop i) := hstat
    _ = (test_profile stat b ts).getD i 0 := hvi.symm
    _ ≤ _ := hle
  have hjn : cp < ts.length := by rw [← hlen, hx]; exact hjlt
  by_contra hcon
  have hout : cp < b ∨ ts.length - b ≤ cp := by omega
  have : (test_profile stat b ts).getD cp 0 = 0 := by
    rw [test_profile_getD stat b ts h2b cp hjn, if_neg (by omega)]
  rw [this] at hcp_pos
  exact absurd hcp_pos (lt_irrefl 0)

/-- C6, witness for the amended theorem: a statistic positive at the split
after two samples, on `[5, 5, 5, 5]` with burn-in 1, reports index 2,
inside `[1, 3)`. -/
theorem detect_change_point_burnin_witness :
    (1 : ℕ) ≤ 2 ∧ (2 : ℕ) < ([5, 5, 5, 5] : List ℚ).length - 1 :=
  detect_change_point_burnin (fun s1 _ => if s1.length = 2 then 1 else 0) 1
    [5, 5, 5, 5] [0, 0, 1, 0] 2 rfl ⟨2, by norm_num, by norm_num, by norm_num⟩

/-- C7, counterexample.  The page-level validation in
`ChangePointAnalysis.get_data` flags insufficient data only when the peak
count is below `burn_in`, not `2 * burn_in`: a 30-peak series with burn-in
20 passes it, although the claim requires a "series too short" failure for
every length below `2 * burn_in = 40`. -/
theorem get_data_threshold_counterexample :
    get_data_valid 20 30 = true ∧ 30 < 2 * 20 := by
  constructor
  · rfl
  · norm_num

/-- C7, amended.  The detector (`validate_ts` inside `detect_change_point`)
raises `ShortTimeSeries`, producing no profile and no changepoint, exactly
when the series length is below `2 * burn_in`, and every non-empty series
of length at least `2 * burn_in` produces an `ok` analysis result; the
page-level `get_data` check, by contrast, flags data invalid exactly when
the peak count is below `burn_in` (not `2 * burn_in`). -/
theorem short_series_validation_spec (stat : List ℚ → List ℚ → ℚ) (b : ℕ)
    (ts : List ℚ) :
    (detect_change_point stat b ts = .error .shortTimeSeries ↔ ts.length < 2 * b) ∧
    (2 * b ≤ ts.length → ts ≠ [] →
      ∃ p cp, detect_change_point stat b ts = .ok (p, cp)) ∧
    (∀ n : ℕ, get_data_valid b n = false ↔ n < b) := by
  refine ⟨⟨?_, ?_⟩, ?_, ?_⟩
  · intro h
    by_contra hcon
    rw [detect_change_point, if_neg (by omega)] at h
    rcases hm : npArgmax (test_profile stat b ts) with _ | j <;> rw [hm] at h <;>
      simp at h
  · intro h
    rw [detect_change_point, if_pos h]
  · intro h2b hne
    obtain ⟨j, hok, _⟩ := detect_change_point_ok stat b ts h2b hne
    exact ⟨test_profile stat b ts, j, hok⟩
  · intro n
    constructor
    · intro h
      by_contra hcon
      rw [get_data_valid, if_neg hcon] at h
      exact absurd h (by simp)
    · intro h
      rw [get_data_valid, if_pos h]

/-- C7, witness for the amended theorem at burn-in 20 on a 40-sample
series. -/
theorem short_series_validation_spec_witness :
    (detect_change_point base_test_statistic 20 (List.replicate 40 1) =
        .error .shortTimeSeries ↔ (List.replicate (40 : ℕ) (1 : ℚ)).length < 2 * 20) ∧
    (2 * 20 ≤ (List.replicate (40 : ℕ) (1 : ℚ)).length →
      (List.replicate (40 : ℕ) (1 : ℚ)) ≠ [] →
      ∃ p cp, detect_change_point base_test_statistic 20 (List.replicate 40 1) =
        .ok (p, cp)) ∧
    (∀ n : ℕ, get_data_valid 20 n = false ↔ n < 20) :=
  short_series_validation_spec base_test_statistic 20 (List.replicate 40 1)

/-! ## Theorem for claim C9 -/

/-- C9.  `evidence_level` is purely a function of the maximum, over
timestamps of the changepoint map, of the number of tests recorded at that
timestamp (the length of the comma-split of its joined test string), and
maps that maximum as 0 → "no", 1 → "limited", 2 → "moderate", and every
larger count → "strong", regardless of which tests agree. -/
theorem evidence_level_spec (cp_dict : List (ℕ × String)) :
    evidence_level cp_dict =
      match (cp_dict.map (fun kv => (str_split kv.2 ',').length)).foldl max 0 with
      | 0 => "no"
      | 1 => "limited"
      | 2 => "moderate"
      | _ => "strong" := by
  have h : cp_dict.foldl (fun acc kv => max acc (str_split kv.2 ',').length) 0 =
      (cp_dict.map (fun kv => (str_split kv.2 ',').length)).foldl max 0 := by
    rw [List.foldl_map]
  simp only [evidence_level, h]
  generalize (cp_dict.map (fun kv => (str_split kv.2 ',').length)).foldl max 0 = m
  rcases m with _ | _ | _ | m <;> simp

/-! ## Theorem for claim C2 -/

/-- C2, evaluation at the failing input.  For a station skew with
`|g_s| > 1.5` (here `g_s = 2`, `n = 30` peaks) the source's `|g| > 1.5`
branch reassigns `a = 0.55` and never assigns `b`, so `mse_station_skew`
raises `UnboundLocalError` and no MSE — and hence no weighted skew — is
produced, contradicting the claim that the coefficients are both assigned
and the MSE is well-defined for every `|g_s|`. -/
theorem mse_station_skew_unbound_b :
    mse_station_skew 2 30 = none ∧ weighted_skew 2 0 30 = none := by
  have h : ¬ (|(2:ℝ)| ≤ 1.5) := by rw [abs_of_nonneg (by norm_num : (0:ℝ) ≤ 2)]; norm_num
  constructor
  · simp only [mse_station_skew]
    rw [if_neg h]
  · simp only [weighted_skew, mse_station_skew]
    rw [if_neg h]
    rfl

/-! ## Theorem for claim C8 -/

/-- C8, evaluation at the failing input.  With `n0 = n1 = 2` the Mood
null-variance expression is `4/3`; the code divides the Mood deviation by
`(4/3)^2 = 16/9` (the variable named `mood_null_sd` is the *square* of the
variance expression), while the claim standardizes by the null standard
deviation `sqrt(4/3)`.  At raw Mood statistic 0 and raw Mann–Whitney
statistic 2 (its null mean, so the MW component vanishes) the code yields
`(45/32)^2 = 2025/1024` where the claim's formula yields `75/16`. -/
theorem lepage_sd_squared_bug :
    lepage_test_statistic 0 2 2 2 = 2025/1024 ∧
    mood_test_statistic 0 2 2 = 45/32 ∧
    lepage_spec_statistic 0 2 2 2 = 75/16 ∧
    ((2025 : ℝ)/1024 ≠ 75/16) := by
  refine ⟨?_, ?_, ?_, by norm_num⟩
  · simp only [lepage_test_statistic]
    norm_num
    rw [abs_of_nonneg (by norm_num : (0:ℝ) ≤ 5 / 2)]
    norm_num
  · simp only [mood_test_statistic]
    norm_num
    rw [abs_of_nonneg (by norm_num : (0:ℝ) ≤ 5 / 2)]
    norm_num
  · simp only [lepage_spec_statistic]
    norm_num
    rw [abs_of_nonneg (by norm_num : (0:ℝ) ≤ 5 / 2), div_pow, div_pow, div_pow,
      Real.sq_sqrt (by norm_num : (0:ℝ) ≤ 4), Real.sq_sqrt (by norm_num : (0:ℝ) ≤ 3)]
    norm_num

/-! ## Theorems for claim C4 -/

/-- C4.  For every LP3 parameter triple with `std_log > 0`, every monotone
standardized Pearson III quantile function, and every ascending list of
positive return periods, the discharges of `ffa_quantiles` (inverse CDF at
`1 - 1/T` in log space, exponentiated base 10 and truncated to integer)
are monotone non-decreasing in the return period. -/
theorem ffa_quantiles_monotone (P3ppf : ℝ → ℝ → ℝ) (mean_log std_log skew_log : ℝ)
    (hmono : Monotone (P3ppf skew_log)) (hstd : 0 < std_log)
    (return_periods : List ℝ) (hpos : ∀ t ∈ return_periods, 0 < t)
    (hsorted : return_periods.Sorted (· ≤ ·)) :
    ((ffa_quantiles P3ppf mean_log std_log skew_log return_periods).map
        Prod.snd).Sorted (· ≤ ·) := by
  simp only [ffa_quantiles, List.map_map]
  rw [List.Sorted, List.pairwise_map]
  refine hsorted.imp_of_mem ?_
  intro a b ha hb hab
  have h1a : (0:ℝ) < a := hpos a ha
  have hq : 1 - 1/a ≤ 1 - 1/b := by
    have := one_div_le_one_div_of_le h1a hab
    linarith
  have h2 : mean_log + std_log * P3ppf skew_log (1 - 1/a) ≤
      mean_log + std_log * P3ppf skew_log (1 - 1/b) :=
    add_le_add_left (mul_le_mul_of_nonneg_left (hmono hq) hstd.le) mean_log
  exact Int.floor_mono (Real.rpow_le_rpow_of_exponent_le (by norm_num) h2)

/-- C4, witness at the identity quantile function, parameters (0, 1, 0) and
return periods [1, 2]. -/
theorem ffa_quantiles_monotone_witness :
    Monotone (fun q : ℝ => q) ∧ (0:ℝ) < 1 ∧ (∀ t ∈ ([1, 2] : List ℝ), 0 < t) ∧
    ([1, 2] : List ℝ).Sorted (· ≤ ·) ∧
    ((ffa_quantiles (fun _ q => q) 0 1 0 [1, 2]).map Prod.snd).Sorted (· ≤ ·) := by
  have hm : Monotone (fun q : ℝ => q) := fun _ _ h => h
  have hp : ∀ t ∈ ([1, 2] : List ℝ), 0 < t := by
    intro t ht
    rcases List.mem_cons.1 ht with rfl | ht
    · norm_num
    · rcases List.mem_cons.1 ht with rfl | ht
      · norm_num
      · simp at ht
  have hs : ([1, 2] : List ℝ).Sorted (· ≤ ·) := by
    rw [List.sorted_cons]
    refine ⟨?_, by simp⟩
    intro b hb
    rcases List.mem_cons.1 hb with rfl | hb
    · norm_num
    · simp at hb
  exact ⟨hm, by norm_num, hp, hs,
    ffa_quantiles_monotone (fun _ q => q) 0 1 0 hm (by norm_num) [1, 2] hp hs⟩

/-! ## Theorems for claim C3 -/

/-- Sum over `List.range` equals the `Finset.range` sum. -/
lemma sum_range_list (f : ℕ → ℚ) (n : ℕ) :
    ((List.range n).map f).sum = ∑ j ∈ Finset.range n, f j := by
  induction n with
  | zero => simp
  | succ n ih =>
    rw [List.range_succ, List.map_append, List.sum_append, Finset.sum_range_succ, ih]
    simp

/-- C3, counterexample.  On the log sample `[0, 0, 1]` the L-moments are
`(1/3, 1/3, 1/3)`, and the code's fitted skew is
`l3 / (l2 * 0.7797) = 10000/7797`, not the claimed
`l3 / (l2 / 0.7797) = 7797/10000`: the source multiplies the pseudo
standard deviation factor where the claim divides. -/
theorem lmom_skew_formula_counterexample :
    l_moments [0, 0, 1] = (1/3, 1/3, 1/3) ∧
    lp3_parameters_lmom [0, 0, 1] = (1/3, 1/3, 10000/7797) ∧
    ((10000/7797 : ℚ) ≠ (1/3) / ((1/3) / (7797/10000))) := by
  have hsort : (([0, 0, 1] : List ℚ).insertionSort (· ≤ ·)).reverse = [1, 0, 0] := by
    decide
  have hlm : l_moments [0, 0, 1] = (1/3, 1/3, 1/3) := by
    simp only [l_moments, hsort]
    norm_num [List.range_succ]
  refine ⟨hlm, ?_, by norm_num⟩
  simp only [lp3_parameters_lmom, hlm]
  norm_num

/-- C3, amended.  For every log-transformed sample of length at least 2,
the L-moments fit returns `(l1, l2, skew)` with `l1 = b0`,
`l2 = 2*b1 - b0`, `l3 = 6*b2 - 6*b1 + b0` computed from the
probability-weighted moments `b_r` of the descending-sorted sample, and the
fitted skew equal to `l3 / (l2 * 0.7797)` — the code multiplies by 0.7797
where the claim divides. -/
theorem lp3_parameters_lmom_spec (series : List ℚ) (h : 2 ≤ series.length) :
    l_moments series = (pwm series 0, 2 * pwm series 1 - pwm series 0,
      6 * pwm series 2 - 6 * pwm series 1 + pwm series 0) ∧
    lp3_parameters_lmom series = (pwm series 0, 2 * pwm series 1 - pwm series 0,
      (6 * pwm series 2 - 6 * pwm series 1 + pwm series 0) /
        ((2 * pwm series 1 - pwm series 0) * (7797/10000))) := by
  have hb : l_moments series = (pwm series 0, 2 * pwm series 1 - pwm series 0,
      6 * pwm series 2 - 6 * pwm series 1 + pwm series 0) := by
    simp only [l_moments, pwm]
    rw [sum_range_list, sum_range_list, sum_range_list]
  refine ⟨hb, ?_⟩
  simp only [lp3_parameters_lmom, hb]

/-- C3, witness for the amended theorem on the sample `[0, 0, 1]`. -/
theorem lp3_parameters_lmom_spec_witness :
    l_moments [0, 0, 1] = (pwm [0, 0, 1] 0, 2 * pwm [0, 0, 1] 1 - pwm [0, 0, 1] 0,
      6 * pwm [0, 0, 1] 2 - 6 * pwm [0, 0, 1] 1 + pwm [0, 0, 1] 0) ∧
    lp3_parameters_lmom [0, 0, 1] =
      (pwm [0, 0, 1] 0, 2 * pwm [0, 0, 1] 1 - pwm [0, 0, 1] 0,
        (6 * pwm [0, 0, 1] 2 - 6 * pwm [0, 0, 1] 1 + pwm [0, 0, 1] 0) /
          ((2 * pwm [0, 0, 1] 1 - pwm [0, 0, 1] 0) * (7797/10000))) :=
  lp3_parameters_lmom_spec [0, 0, 1] (by norm_num)

/-! ## Theorems for claim C10 -/

/-- A date is "within the window" of a previous date when it is less than
`md` years (of 365 days) after it — the join condition of
`get_change_windows`. -/
def year_gap_lt (md : ℚ) (a b : ℤ) : Prop := ((b - a : ℤ) : ℚ) / 365 < md

lemma cons_head_flatten (e : ℤ × String) (cks : List (List (ℤ × String))) :
    (cons_head e cks).flatten = e :: cks.flatten := by
  cases cks <;> simp [cons_head]

lemma chunk_from_ne_nil (md : ℚ) (prev : ℤ) (l : List (ℤ × String)) :
    chunk_from md prev l ≠ [] := by
  cases l with
  | nil => simp [chunk_from]
  | cons e rest =>
    rcases e with ⟨d, v⟩
    simp only [chunk_from]
    split
    · cases chunk_from md d rest <;> simp [cons_head]
    · simp

lemma union_tests_foldl_init (c : List (ℤ × String)) : ∀ (init : Finset String),
    c.foldl (fun s e => s ∪ (str_split e.2 ',').toFinset) init =
      init ∪ union_tests c := by
  induction c with
  | nil => intro init; simp [union_tests]
  | cons e rest ih =>
    intro init
    simp only [union_tests, List.foldl_cons]
    rw [ih, ih ((∅ : Finset String) ∪ (str_split e.2 ',').toFinset)]
    rw [Finset.empty_union, Finset.union_assoc]

lemma union_tests_cons (e : ℤ × String) (c : List (ℤ × String)) :
    union_tests (e :: c) = (str_split e.2 ',').toFinset ∪ union_tests c := by
  simp only [union_tests, List.foldl_cons]
  rw [union_tests_foldl_init, Finset.empty_union]
  rfl

lemma union_tests_nil : union_tests [] = ∅ := rfl

/-- The loop state of `get_change_windows` is fully described by the
reference chunking `chunk_from`: the first chunk extends the open group,
later chunks become the remaining groups, and the emitted test counts are
cardinalities of fragment unions. -/
lemma cw_go_eq_chunks (md : ℚ) : ∀ (rest : List (ℤ × String)) (last : ℤ)
    (grpRev : List ℤ) (tests : Finset String),
    cw_go md rest last grpRev tests =
      ((grpRev.reverse ++ ((chunk_from md last rest).headD []).map Prod.fst) ::
          ((chunk_from md last rest).tail).map (List.map Prod.fst),
        (tests ∪ union_tests ((chunk_from md last rest).headD [])).card ::
          ((chunk_from md last rest).tail).map (fun c => (union_tests c).card)) := by
  intro rest
  induction rest with
  | nil => intro last grpRev tests; simp [cw_go, chunk_from, union_tests]
  | cons e rest ih =>
    rcases e with ⟨d, v⟩
    intro last grpRev tests
    obtain ⟨h', t', hck⟩ := List.exists_cons_of_ne_nil (chunk_from_ne_nil md d rest)
    by_cases hgap : ((d - last : ℤ) : ℚ) / 365 < md
    · have hL : cw_go md ((d, v) :: rest) last grpRev tests =
          cw_go md rest d (d :: grpRev) (tests ∪ (str_split v ',').toFinset) := by
        simp only [cw_go]
        rw [if_pos hgap]
      have hR : chunk_from md last ((d, v) :: rest) =
          cons_head (d, v) (chunk_from md d rest) := by
        simp only [chunk_from]
        rw [if_pos hgap]
      rw [hL, hR, ih, hck]
      simp [cons_head, union_tests_cons, Finset.union_assoc, List.append_assoc]
    · have hL : cw_go md ((d, v) :: rest) last grpRev tests =
          (grpRev.reverse :: (cw_go md rest d [d] (str_split v ',').toFinset).1,
            tests.card :: (cw_go md rest d [d] (str_split v ',').toFinset).2) := by
        simp only [cw_go]
        rw [if_neg hgap]
      have hR : chunk_from md last ((d, v) :: rest) =
          [] :: cons_head (d, v) (chunk_from md d rest) := by
        simp only [chunk_from]
        rw [if_neg hgap]
      rw [hL, hR, ih, hck]
      simp [cons_head, union_tests_cons, union_tests_nil, Finset.union_assoc]

lemma chunk_from_flatten (md : ℚ) : ∀ (l : List (ℤ × String)) (prev : ℤ),
    (chunk_from md prev l).flatten = l := by
  intro l
  induction l with
  | nil => intro prev; simp [chunk_from]
  | cons e rest ih =>
    rcases e with ⟨d, v⟩
    intro prev
    simp only [chunk_from]
    split
    · rw [cons_head_flatten, ih]
    · rw [List.flatten_cons, cons_head_flatten, ih]
      simp

lemma chunk_from_tail_ne_nil (md : ℚ) : ∀ (l : List (ℤ × String)) (prev : ℤ),
    ∀ c ∈ (chunk_from md prev l).tail, c ≠ [] := by
  intro l
  induction l with
  | nil => intro prev c hc; simp [chunk_from] at hc
  | cons e rest ih =>
    rcases e with ⟨d, v⟩
    intro prev c hc
    obtain ⟨h', t', hck⟩ := List.exists_cons_of_ne_nil (chunk_from_ne_nil md d rest)
    simp only [chunk_from] at hc
    split at hc
    · rw [hck] at hc
      simp only [cons_head, List.tail_cons] at hc
      exact ih d c (by rw [hck]; exact hc)
    · rw [hck] at hc
      simp only [cons_head, List.tail_cons] at hc
      rcases List.mem_cons.1 hc with rfl | hc
      · simp
      · exact ih d c (by rw [hck]; exact hc)

/-- Structural invariants of the reference chunking: chunks are internally
chained by the window condition, the open head chunk (when non-empty)
starts within the window of `prev`, consecutive chunks are separated by a
gap at least the window, and when the head chunk is empty the next chunk
starts outside the window of `prev`. -/
lemma chunk_from_invariants (md : ℚ) : ∀ (l : List (ℤ × String)) (prev : ℤ),
    (∀ c ∈ chunk_from md prev l, List.Chain' (fun a b => year_gap_lt md a.1 b.1) c) ∧
    (∀ e, ((chunk_from md prev l).headD []).head? = some e → year_gap_lt md prev e.1) ∧
    List.Chain' (fun c₁ c₂ => ∀ x y, c₁.getLast? = some x → c₂.head? = some y →
      ¬ year_gap_lt md x.1 y.1) (chunk_from md prev l) ∧
    (∀ y, (chunk_from md prev l).headD [] = [] →
      ((chunk_from md prev l).tail.headD []).head? = some y →
      ¬ year_gap_lt md prev y.1) := by
  intro l
  induction l with
  | nil =>
    intro prev
    refine ⟨?_, ?_, ?_, ?_⟩
    · intro c hc
      simp only [chunk_from] at hc
      rcases List.mem_cons.1 hc with rfl | hc
      · exact List.chain'_nil
      · simp at hc
    · intro e he
      simp [chunk_from] at he
    · simp only [chunk_from]
      exact List.chain'_singleton []
    · intro y _ hy
      simp [chunk_from] at hy
  | cons e rest ih =>
    rcases e with ⟨d, v⟩
    intro prev
    obtain ⟨W1, W2, B1, B2⟩ := ih d
    obtain ⟨h', t', hck⟩ := List.exists_cons_of_ne_nil (chunk_from_ne_nil md d rest)
    rw [hck] at W1 W2 B1 B2
    simp only [List.headD_cons, List.tail_cons] at W2 B2
    have hchainhead : List.Chain' (fun a b => year_gap_lt md a.1 b.1) ((d, v) :: h') := by
      rw [List.chain'_cons']
      refine ⟨?_, W1 h' (List.mem_cons_self h' t')⟩
      intro y hy
      rcases hh : h' with _ | ⟨y0, h''⟩
      · rw [hh] at hy; simp at hy
      · rw [hh] at hy
        simp only [List.head?_cons, Option.mem_def, Option.some.injEq] at hy
        subst hy
        exact W2 y0 (by rw [hh, List.head?_cons])
    have hboundtail : List.Chain' (fun c₁ c₂ => ∀ x y, c₁.getLast? = some x →
        c₂.head? = some y → ¬ year_gap_lt md x.1 y.1) (((d, v) :: h') :: t') := by
      rw [List.chain'_cons']
      refine ⟨?_, (List.chain'_cons'.1 B1).2⟩
      intro c2 hc2
      intro x y hx hy
      rcases hh : h' with _ | ⟨y0, h''⟩
      · rw [hh] at hx
        simp only [List.getLast?_singleton, Option.some.injEq] at hx
        subst hx
        rcases ht' : t' with _ | ⟨c2', t''⟩
        · rw [ht'] at hc2; simp at hc2
        · rw [ht'] at hc2
          simp only [List.head?_cons, Option.mem_def, Option.some.injEq] at hc2
          subst hc2
          have := B2 y (by rw [hh]) (by rw [ht', List.headD_cons, hy])
          simpa using this
      · have hx' : h'.getLast? = some x := by
          rw [hh] at hx ⊢
          rw [← hx, List.getLast?_cons_cons]
        exact (List.chain'_cons'.1 B1).1 c2 hc2 x y hx' hy
    by_cases hgap : ((d - prev : ℤ) : ℚ) / 365 < md
    · have hR : chunk_from md prev ((d, v) :: rest) =
          ((d, v) :: h') :: t' := by
        simp only [chunk_from]
        rw [if_pos hgap, hck]
        rfl
      rw [hR]
      refine ⟨?_, ?_, hboundtail, ?_⟩
      · intro c hc
        rcases List.mem_cons.1 hc with rfl | hc
        · exact hchainhead
        · exact W1 c (List.mem_cons_of_mem h' hc)
      · intro e he
        simp only [List.headD_cons, List.head?_cons, Option.some.injEq] at he
        subst he
        exact hgap
      · intro y hy
        simp at hy
    · have hR : chunk_from md prev ((d, v) :: rest) =
          [] :: ((d, v) :: h') :: t' := by
        simp only [chunk_from]
        rw [if_neg hgap, hck]
        rfl
      rw [hR]
      refine ⟨?_, ?_, ?_, ?_⟩
      · intro c hc
        rcases List.mem_cons.1 hc with rfl | hc
        · exact List.chain'_nil
        · rcases List.mem_cons.1 hc with rfl | hc
          · exact hchainhead
          · exact W1 c (List.mem_cons_of_mem h' hc)
      · intro e he
        simp at he
      · rw [List.chain'_cons']
        refine ⟨?_, hboundtail⟩
        intro c2 hc2 x y hx hy
        simp at hx
      · intro y _ hy
        simp only [List.tail_cons, List.headD_cons, List.head?_cons,
          Option.some.injEq] at hy
        subst hy
        exact hgap

/-- The invariants transported to the chunking of a full entry list. -/
lemma full_chunks_invariants (md : ℚ) (d : ℤ) (v : String)
    (rest : List (ℤ × String)) :
    (∀ c ∈ full_chunks md ((d, v) :: rest),
      List.Chain' (fun a b => year_gap_lt md a.1 b.1) c) ∧
    List.Chain' (fun c₁ c₂ => ∀ x y, c₁.getLast? = some x → c₂.head? = some y →
      ¬ year_gap_lt md x.1 y.1) (full_chunks md ((d, v) :: rest)) := by
  obtain ⟨h', t', hck⟩ := List.exists_cons_of_ne_nil (chunk_from_ne_nil md d rest)
  obtain ⟨W1, W2, B1, B2⟩ := chunk_from_invariants md rest d
  rw [hck] at W1 W2 B1 B2
  simp only [List.headD_cons, List.tail_cons] at W2 B2
  have hfc : full_chunks md ((d, v) :: rest) = ((d, v) :: h') :: t' := by
    simp only [full_chunks]
    rw [hck]
    rfl
  have hchainhead : List.Chain' (fun a b => year_gap_lt md a.1 b.1) ((d, v) :: h') := by
    rw [List.chain'_cons']
    refine ⟨?_, W1 h' (List.mem_cons_self h' t')⟩
    intro y hy
    rcases hh : h' with _ | ⟨y0, h''⟩
    · rw [hh] at hy; simp at hy
    · rw [hh] at hy
      simp only [List.head?_cons, Option.mem_def, Option.some.injEq] at hy
      subst hy
      exact W2 y0 (by rw [hh, List.head?_cons])
  rw [hfc]
  refine ⟨?_, ?_⟩
  · intro c hc
    rcases List.mem_cons.1 hc with rfl | hc
    · exact hchainhead
    · exact W1 c (List.mem_cons_of_mem h' hc)
  · rw [List.chain'_cons']
    refine ⟨?_, (List.chain'_cons'.1 B1).2⟩
    intro c2 hc2 x y hx hy
    rcases hh : h' with _ | ⟨y0, h''⟩
    · rw [hh] at hx
      simp only [List.getLast?_singleton, Option.some.injEq] at hx
      subst hx
      rcases ht' : t' with _ | ⟨c2', t''⟩
      · rw [ht'] at hc2; simp at hc2
      · rw [ht'] at hc2
        simp only [List.head?_cons, Option.mem_def, Option.some.injEq] at hc2
        subst hc2
        have := B2 y (by rw [hh]) (by rw [ht', List.headD_cons, hy])
        simpa using this
    · have hx' : h'.getLast? = some x := by
        rw [hh] at hx ⊢
        rw [← hx, List.getLast?_cons_cons]
    
      exact (List.chain'_cons'.1 B1).1 c2 hc2 x y hx' hy

/-- C10, counterexample.  On the map `{0: "A, B", 365: "B"}` (the two dates
one year apart, so a single window) the code reports a test count of 3:
splitting the `", "`-joined value `"A, B"` on `","` yields the fragments
`"A"` and `" B"`, and the union `{"A", " B", "B"}` double-counts test `B`
because of the leading space — but the union of the test identifiers over
the window is `{A, B}`, of size 2. -/
theorem get_change_windows_fragment_counterexample :
    get_change_windows 10 [(0, "A, B"), (365, "B")] = some ([[0, 365]], [3]) ∧
    ({"A", "B"} : Finset String).card = 2 ∧ (3 : ℕ) ≠ 2 := by
  refine ⟨?_, by decide, by decide⟩
  have h1 : str_split "A, B" ',' = ["A", " B"] := rfl
  have h2 : str_split "B" ',' = ["B"] := rfl
  simp only [get_change_windows, cw_go, h1, h2]
  rw [if_pos (by norm_num : ((365 - 0 : ℤ) : ℚ) / 365 < 10)]
  decide

/-- C10, amended.  For every non-empty changepoint map,
`get_change_windows` partitions the dates, in their original order, into
groups: a date joins the current group exactly when it is less than
`max_dist` years (of 365 days) after the last date of that group
(consecutive groups are separated by at least that gap), and each group's
reported test count is the cardinality of the union over its dates of the
comma-split *fragments* of each date's joined test string — fragments, not
test identifiers, so a test appearing both first (no leading space) and
non-first (leading space) within one group is counted twice. -/
theorem get_change_windows_spec (md : ℚ) (entries : List (ℤ × String))
    (hne : entries ≠ []) :
    ∃ cks : List (List (ℤ × String)),
      get_change_windows md entries =
        some (cks.map (List.map Prod.fst), cks.map (fun c => (union_tests c).card)) ∧
      cks.flatten = entries ∧
      (∀ c ∈ cks, c ≠ []) ∧
      (∀ c ∈ cks, List.Chain' (fun a b => year_gap_lt md a.1 b.1) c) ∧
      List.Chain' (fun c₁ c₂ => ∀ x y, c₁.getLast? = some x → c₂.head? = some y →
        ¬ year_gap_lt md x.1 y.1) cks := by
  obtain ⟨e, rest, rfl⟩ := List.exists_cons_of_ne_nil hne
  rcases e with ⟨d, v⟩
  obtain ⟨h', t', hck⟩ := List.exists_cons_of_ne_nil (chunk_from_ne_nil md d rest)
  have hfc : full_chunks md ((d, v) :: rest) = ((d, v) :: h') :: t' := by
    simp only [full_chunks]
    rw [hck]
    rfl
  obtain ⟨hwithin, hbound⟩ := full_chunks_invariants md d v rest
  rw [hfc] at hwithin hbound
  refine ⟨((d, v) :: h') :: t', ?_, ?_, ?_, hwithin, hbound⟩
  · have hgw : get_change_windows md ((d, v) :: rest) =
        some (cw_go md rest d [d] (str_split v ',').toFinset) := rfl
    rw [hgw, cw_go_eq_chunks, hck]
    simp [union_tests_cons]
  · have h2 := chunk_from_flatten md rest d
    rw [hck, List.flatten_cons] at h2
    rw [List.flatten_cons]
    simp only [List.cons_append]
    rw [h2]
  · intro c hc
    rcases List.mem_cons.1 hc with rfl | hc
    · simp
    · have := chunk_from_tail_ne_nil md rest d c
      rw [hck, List.tail_cons] at this
      exact this hc

/-- C10, witness for the amended theorem on the one-entry map
`{7: "Mood"}`. -/
theorem get_change_windows_spec_witness :
    ∃ cks : List (List (ℤ × String)),
      get_change_windows 10 [(7, "Mood")] =
        some (cks.map (List.map Prod.fst), cks.map (fun c => (union_tests c).card)) ∧
      cks.flatten = [(7, "Mood")] ∧
      (∀ c ∈ cks, c ≠ []) ∧
      (∀ c ∈ cks, List.Chain' (fun a b => year_gap_lt 10 a.1 b.1) c) ∧
      List.Chain' (fun c₁ c₂ => ∀ x y, c₁.getLast? = some x → c₂.head? = some y →
        ¬ year_gap_lt 10 x.1 y.1) cks :=
  get_change_windows_spec 10 [(7, "Mood")] (by simp)
